import Mathlib

/-!
Shallow embedding of `flash.py` (mlb_flash): the serial flash-programmer
protocol client and its boot-table / memory-map / erase-safety analysis.

Bytes are modelled as `Nat` (the source manipulates Python 2 byte strings,
one character per byte).  Serial I/O is modelled explicitly: reads consume a
list of input bytes, writes append to an output list, and the two generator
functions (`rom_read_`, `rom_write_`) are modelled as producing an explicit
event trace (receive / send / ack / yield) so that the interleaving the
source exhibits is visible in the model.  Fallible operations return
`Except FlashError`.
-/

namespace MlbFlash

/-- `i2b(num, num_bytes)` from flash.py: little-endian encoding of `num`
into `num_bytes` bytes (`out += chr(num & 0xFF); num >>= 8` per byte). -/
def i2b (num : Nat) : Nat → List Nat
  | 0 => []
  | numBytes + 1 => (num &&& 0xFF) :: i2b (num >>> 8) numBytes

/-- `b2i(data)` from flash.py: decode little-endian bytes
(`for char in data[::-1]: out <<= 8; out |= ord(char)`). -/
def b2i (data : List Nat) : Nat :=
  data.reverse.foldl (fun out c => (out <<< 8) ||| c) 0

/-- `byte(num)` from flash.py. -/
def byte (num : Nat) : List Nat := i2b num 1

/-- `half(num)` from flash.py. -/
def half (num : Nat) : List Nat := i2b num 2

/-- `word(num)` from flash.py. -/
def word (num : Nat) : List Nat := i2b num 4

/-- `dblw(num)` from flash.py. -/
def dblw (num : Nat) : List Nat := i2b num 8

/-- The distinct `FlashException` situations raised by flash.py. -/
inductive FlashError where
  /-- `Flash.read`: "Expected %d bytes, got %d." -/
  | shortRead (expected got : Nat)
  /-- `Flash.check_connection`: "Board not responding!" -/
  | boardNotResponding
  /-- `Flash.get_ack`: "Acknowledge 'A' expected, got ..." -/
  | badAck (got : Nat)
  deriving Repr, DecidableEq

/-- `Flash.MAGIC_CHALLENGE = "\xFE\xA5\x1B\x1E"`. -/
def MAGIC_CHALLENGE : List Nat := [0xFE, 0xA5, 0x1B, 0x1E]

/-- `Flash.MAGIC_RESPONSE = "\xFE\xE1\x90\x0D"`. -/
def MAGIC_RESPONSE : List Nat := [0xFE, 0xE1, 0x90, 0x0D]

/-- `Flash.ACK_PERIOD = 16`: number of bytes sent before an ack. -/
def ACK_PERIOD : Nat := 16

/-- One observable protocol action of the bulk-transfer generators. -/
inductive Ev where
  /-- `self.write(bytes)`: bytes sent to the board. -/
  | send (bytes : List Nat)
  /-- one byte obtained by `self.read(1)` inside the `rom_read_` loop. -/
  | recv (b : Nat)
  /-- `self.send_ack()`: writes the single byte `A` to the board. -/
  | sendAck
  /-- `self.get_ack()`: reads one byte from the board, which must be `A`. -/
  | getAck
  /-- `yield data` inside `rom_read_`. -/
  | yieldChunk (c : List Nat)
  /-- `yield len(block)` inside `rom_write_`. -/
  | yieldLen (n : Nat)
  deriving Repr, DecidableEq

/-- The `while read_bytes < length` loop of `Flash.rom_read_`, as an event
trace.  `input` is the stream of bytes the board will send, `data` the
accumulated chunk, `readBytes` the `read_bytes` counter and `remaining`
the clock `length - read_bytes` (the loop runs while `read_bytes < length`,
incrementing `read_bytes` by one per iteration).  An empty input on a read
is the timeout case of `Flash.read` (got 0 of 1 bytes). -/
def romReadLoop (input data : List Nat) (readBytes : Nat) :
    Nat → Except FlashError (List Ev)
  | 0 =>
    -- loop exhausted; "Get the final ack" when read_bytes % ACK_PERIOD != 0
    if readBytes % ACK_PERIOD ≠ 0 then .ok [.sendAck, .yieldChunk data]
    else .ok []
  | remaining + 1 =>
    match input with
    | [] => .error (.shortRead 1 0)
    | b :: input' =>
      if (readBytes + 1) % ACK_PERIOD = 0 then
        (romReadLoop input' [] (readBytes + 1) remaining).map
          (fun evs => .recv b :: .sendAck :: .yieldChunk (data ++ [b]) :: evs)
      else
        (romReadLoop input' (data ++ [b]) (readBytes + 1) remaining).map
          (fun evs => .recv b :: evs)

/-- `Flash.rom_read_(address, length)`: writes `R` (0x52), the address word
and the length word, then runs the ack-chunked receive loop against the
board's byte stream `input`. -/
def rom_read_ (address length : Nat) (input : List Nat) :
    Except FlashError (List Ev) :=
  (romReadLoop input [] 0 length).map
    (fun evs => .send [0x52] :: .send (word address) :: .send (word length) :: evs)

/-- The `while data:` loop of `Flash.rom_write_`, as an event trace.
Each iteration sends `data[:ACK_PERIOD]`, yields its length and then reads
one acknowledge byte from `input` (which `get_ack` requires to be `A`,
0x41). -/
def romWriteLoop (data input : List Nat) : Except FlashError (List Ev) :=
  match data with
  | [] => .ok []
  | d :: ds =>
    let block := (d :: ds).take ACK_PERIOD
    let rest := (d :: ds).drop ACK_PERIOD
    match input with
    | [] => .error (.shortRead 1 0)
    | a :: input' =>
      if a = 0x41 then
        (romWriteLoop rest input').map
          (fun evs => .send block :: .yieldLen block.length :: .getAck :: evs)
      else
        .error (.badAck a)
termination_by data.length
decreasing_by simp [rest, ACK_PERIOD]; omega

/-- `Flash.rom_write_(address, data)`: writes `W` (0x57), the address word
and the length word, then runs the ack-awaiting send loop. -/
def rom_write_ (address : Nat) (data input : List Nat) :
    Except FlashError (List Ev) :=
  (romWriteLoop data input).map
    (fun evs =>
      .send [0x57] :: .send (word address) :: .send (word data.length) :: evs)

/-- The serial port, as seen by the host: bytes still to be received from
the board, and the bytes written to the board so far. -/
structure SerialState where
  input : List Nat
  output : List Nat
  deriving Repr, DecidableEq

/-- `Flash.read(length)`: `self.serial.read(length)` returns at most
`length` bytes (fewer on timeout); a short result raises
"Expected %d bytes, got %d.". -/
def flashRead (length : Nat) (s : SerialState) :
    Except FlashError (List Nat × SerialState) :=
  let data := s.input.take length
  if data.length ≠ length then .error (.shortRead length data.length)
  else .ok (data, ⟨s.input.drop length, s.output⟩)

/-- `Flash.write(data)`: `self.serial.write(data)`. -/
def flashWrite (data : List Nat) (s : SerialState) : SerialState :=
  ⟨s.input, s.output ++ data⟩

/-- `Flash.check_connection()`: send the magic challenge, read 4 bytes and
require them to equal the magic response. -/
def check_connection (s : SerialState) : Except FlashError SerialState :=
  let s1 := flashWrite MAGIC_CHALLENGE s
  match flashRead 4 s1 with
  | .error e => .error e
  | .ok (data, s2) =>
    if data ≠ MAGIC_RESPONSE then .error .boardNotResponding
    else .ok s2

/-- `ManchesterFlash.CONTROL_BLOCK`: address of the start of the control
block. -/
def CONTROL_BLOCK : Nat := 0x4000

/-- `ManchesterFlash.NUM_BOOTS`: number of boot table entries. -/
def NUM_BOOTS : Nat := 16

/-- `ManchesterFlash.BOOT_MAGIC_NUMBER = "CODE"` as ASCII bytes. -/
def BOOT_MAGIC_NUMBER : List Nat := [0x43, 0x4F, 0x44, 0x45]

/-- `ManchesterFlash.ROM_SECTORS`: the individually erasable sectors of
the Flash memory, as listed in the source. -/
def ROM_SECTORS : List (Nat × Nat) := [
  (0x000000, 0x004000),
  (0x004000, 0x006000),
  (0x006000, 0x008000),
  (0x008000, 0x010000),
  (0x010000, 0x020000),
  (0x020000, 0x030000),
  (0x030000, 0x040000),
  (0x040000, 0x050000),
  (0x050000, 0x060000),
  (0x060000, 0x070000),
  (0x070000, 0x080000),
  (0x080000, 0x090000),
  (0x090000, 0x0A0000),
  (0x0A0000, 0x0B0000),
  (0x0B0000, 0x0C0000),
  (0x0C0000, 0x0D0000),
  (0x0D0000, 0x0E0000),
  (0x0E0000, 0x0F0000),
  (0x0F0000, 0x100000),
  (0x100000, 0x110000),
  (0x110000, 0x120000),
  (0x120000, 0x130000),
  (0x130000, 0x140000),
  (0x140000, 0x150000),
  (0x150000, 0x160000),
  (0x160000, 0x170000),
  (0x170000, 0x180000),
  (0x180000, 0x190000),
  (0x190000, 0x1A0000),
  (0x1A0000, 0x1B0000),
  (0x1B0000, 0x1C0000),
  (0x1C0000, 0x1D0000),
  (0x1D0000, 0x1E0000),
  (0x1E0000, 0x1F0000),
  (0x1F0000, 0x200000)]

/-- The decoded fields of one valid boot-table slot
(the tuple appended by `ManchesterFlash.get_boot_table`). -/
structure BootEntry where
  flags : Nat
  ram_img_start : Nat
  ram_img_length : Nat
  rom_img_start : Nat
  rom_img_length : Nat
  rom_exec_offset : Nat
  rom_exec_cpsr : Nat
  spartan_start : Nat
  spartan_length : Nat
  virtex_start : Nat
  virtex_length : Nat
  lcd_msg : List Nat
  tail : List Nat
  deriving Repr, DecidableEq

/-- Python slice `data[a:b]`. -/
def pySlice (data : List Nat) (a b : Nat) : List Nat :=
  (data.drop a).take (b - a)

/-- Python `s.rstrip("\xFF")`: remove trailing 0xFF bytes. -/
def rstripFF (l : List Nat) : List Nat :=
  (l.reverse.dropWhile (· == 0xFF)).reverse

/-- The body of the per-slot loop of `ManchesterFlash.get_boot_table`:
decode one 256-byte slot.  `None` (here `none`) is appended when the magic
number differs from `CODE`; otherwise the field record is appended.
`lcd_msg, z, tail = data[0x30:].rstrip("\xFF").partition("\0")`. -/
def decodeBootSlot (data : List Nat) : Option BootEntry :=
  let magic_number := pySlice data 0x00 0x04
  let stripped := rstripFF (data.drop 0x30)
  let lcd_msg := stripped.takeWhile (· != 0)
  let tail := (stripped.dropWhile (· != 0)).drop 1
  if magic_number ≠ BOOT_MAGIC_NUMBER then none
  else some {
    flags := b2i (pySlice data 0x04 0x08)
    ram_img_start := b2i (pySlice data 0x08 0x0C)
    ram_img_length := b2i (pySlice data 0x0C 0x10)
    rom_img_start := b2i (pySlice data 0x10 0x14)
    rom_img_length := b2i (pySlice data 0x14 0x18)
    rom_exec_offset := b2i (pySlice data 0x18 0x1C)
    rom_exec_cpsr := b2i (pySlice data 0x1C 0x20)
    spartan_start := b2i (pySlice data 0x20 0x24)
    spartan_length := b2i (pySlice data 0x24 0x28)
    virtex_start := b2i (pySlice data 0x28 0x2C)
    virtex_length := b2i (pySlice data 0x2C 0x30)
    lcd_msg := lcd_msg
    tail := tail }

/-- A `((start, end), name)` memory-table entry. -/
abbrev Region := (Nat × Nat) × String

/-- The regions contributed by one valid boot entry in
`ManchesterFlash.get_memory_table` (RAM, ROM, Spartan, Virtex images, in
source order, each only when its length is non-zero). -/
def bootRegions (bootNum : Nat) (b : BootEntry) : List Region :=
  (if b.ram_img_length ≠ 0 then
    [((b.ram_img_start, b.ram_img_start + b.ram_img_length),
      "Boot " ++ toString bootNum ++ " RAM Image")]
   else []) ++
  (if b.rom_img_length ≠ 0 then
    [((b.rom_img_start, b.rom_img_start + b.rom_img_length),
      "Boot " ++ toString bootNum ++ " ROM Image")]
   else []) ++
  (if b.spartan_length ≠ 0 then
    [((b.spartan_start, b.spartan_start + b.spartan_length),
      "Boot " ++ toString bootNum ++ " Spartan Image")]
   else []) ++
  (if b.virtex_length ≠ 0 then
    [((b.virtex_start, b.virtex_start + b.virtex_length),
      "Boot " ++ toString bootNum ++ " Virtex Image")]
   else [])

/-- The `ranges` list of `ManchesterFlash.get_memory_table` before
sorting: two fixed regions, then the image regions of each valid boot
entry in slot order. -/
def memoryRanges (boot_table : List (Option BootEntry)) : List Region :=
  [((CONTROL_BLOCK, CONTROL_BLOCK + 0x100 * NUM_BOOTS), "Boot Table"),
   ((0x008000, 0x010000), "MMU Default Table")] ++
  (boot_table.enum.map (fun p =>
    match p.2 with
    | none => []
    | some b => bootRegions p.1 b)).flatten

/-- The sort relation of `sorted(ranges, key = lambda ((s,e),n): s,
reverse = True)`: descending by start address. -/
def memKeyGe (x y : Region) : Prop := y.1.1 ≤ x.1.1

instance : DecidableRel memKeyGe := fun x y => Nat.decLe y.1.1 x.1.1

instance : IsTotal Region memKeyGe :=
  ⟨fun a b => Nat.le_total b.1.1 a.1.1⟩

instance : IsTrans Region memKeyGe :=
  ⟨fun _ _ _ h1 h2 => Nat.le_trans h2 h1⟩

/-- `ManchesterFlash.get_memory_table(boot_table)`: the ranges, sorted by
start address descending.  Python's `sorted` is a stable sort; insertion
sort with the reflexive descending relation is the same stable descending
sort. -/
def get_memory_table (boot_table : List (Option BootEntry)) : List Region :=
  List.insertionSort memKeyGe (memoryRanges boot_table)

/-- Python 2 `<=` on possibly-`None` values: `None` compares below every
integer. -/
def pyLe : Option Nat → Option Nat → Bool
  | none, _ => true
  | some _, none => false
  | some a, some b => a ≤ b

/-- Python 2 `<` on possibly-`None` values. -/
def pyLt : Option Nat → Option Nat → Bool
  | none, none => false
  | none, some _ => true
  | some _, none => false
  | some a, some b => a < b

/-- The sector-search loop of `ManchesterFlash.check_erase`: the first
sector whose half-open range contains `address`; both bounds end up `None`
when no sector matches (the loop resets `start, end = None, None` on every
non-matching iteration). -/
def findSector (address : Nat) : Option Nat × Option Nat :=
  match ROM_SECTORS.find? (fun p => decide (p.1 ≤ address) && decide (address < p.2)) with
  | some (s, e) => (some s, some e)
  | none => (none, none)

/-- `ManchesterFlash.check_erase(address, memory_table)`: the sector to be
erased and the memory-table entries satisfying
`m_start <= start < m_end or m_start <= end < m_end` (with Python 2
`None` comparison semantics when no sector contains the address). -/
def check_erase (address : Nat) (memory_table : List Region) :
    (Option Nat × Option Nat) × List Region :=
  let se := findSector address
  ((se.1, se.2),
   memory_table.filter (fun r =>
     (pyLe (some r.1.1) se.1 && pyLt se.1 (some r.1.2)) ||
     (pyLe (some r.1.1) se.2 && pyLt se.2 (some r.1.2))))

/-- The chunks yielded along a trace, in order. -/
def chunks (evs : List Ev) : List (List Nat) :=
  evs.filterMap (fun e => match e with | .yieldChunk c => some c | _ => none)

/-- The chunk lengths yielded along a trace, in order. -/
def yieldLens (evs : List Ev) : List Nat :=
  evs.filterMap (fun e => match e with | .yieldLen n => some n | _ => none)

/-- How many acknowledge bytes (`A`) were sent to the board. -/
def sendAckCount : List Ev → Nat
  | [] => 0
  | .sendAck :: rest => sendAckCount rest + 1
  | _ :: rest => sendAckCount rest

/-- How many acknowledge bytes were awaited from the board. -/
def getAckCount : List Ev → Nat
  | [] => 0
  | .getAck :: rest => getAckCount rest + 1
  | _ :: rest => getAckCount rest

/-- The byte blocks sent to the board along a trace, in order. -/
def sentBlocks (evs : List Ev) : List (List Nat) :=
  evs.filterMap (fun e => match e with | .send b => some b | _ => none)

/-- The receive-then-ack-then-yield discipline of `rom_read_`: every
acknowledge sent is immediately followed by the yield of the accumulated
chunk, and only receives (or writes) come between. -/
def wellFormedReadTrace : List Ev → Bool
  | [] => true
  | .send _ :: rest => wellFormedReadTrace rest
  | .recv _ :: rest => wellFormedReadTrace rest
  | .sendAck :: .yieldChunk _ :: rest => wellFormedReadTrace rest
  | _ => false

/-- The write-then-yield-then-await-ack discipline of `rom_write_`'s loop:
each block sent is followed by the yield of its length and then by exactly
one awaited acknowledge. -/
def wellFormedWriteTrace : List Ev → Bool
  | [] => true
  | .send _ :: .yieldLen _ :: .getAck :: rest => wellFormedWriteTrace rest
  | _ => false

end MlbFlash

namespace MlbFlash

/-! ### Helper lemmas (not claim theorems) -/

/-- Unfolding lemma: `b2i` of a cons. -/
theorem b2i_cons (b : Nat) (l : List Nat) :
    b2i (b :: l) = (b2i l <<< 8) ||| b := by
  simp [b2i, List.foldl_append]

/-- General little-endian round trip for the flash.py codec. -/
theorem b2i_i2b (w : Nat) :
    ∀ n : Nat, n < 2 ^ (8 * w) → b2i (i2b n w) = n := by
  induction w with
  | zero =>
    intro n hn
    interval_cases n
    rfl
  | succ w ih =>
    intro n hn
    have hdiv : n >>> 8 < 2 ^ (8 * w) := by
      rw [Nat.shiftRight_eq_div_pow]
      have : n < 2 ^ (8 * w) * 2 ^ 8 := by
        calc n < 2 ^ (8 * (w + 1)) := hn
        _ = 2 ^ (8 * w) * 2 ^ 8 := by ring
      exact Nat.div_lt_of_lt_mul (by omega)
    rw [i2b, b2i_cons, ih _ hdiv]
    have hand : n &&& 0xFF = n % 2 ^ 8 := by
      have := Nat.and_pow_two_sub_one_eq_mod n 8
      simpa using this
    have hlt : n % 2 ^ 8 < 2 ^ 8 := Nat.mod_lt _ (by norm_num)
    rw [hand, Nat.shiftLeft_eq, Nat.shiftRight_eq_div_pow, Nat.mul_comm,
        ← Nat.mul_add_lt_is_or hlt, Nat.mul_comm]
    omega

end MlbFlash

/-- C9: for every byte width w in {1, 2, 4, 8} and every n < 2^(8·w),
decoding the w-byte little-endian encoding of n recovers n:
`b2i(i2b(n, w)) = n`. -/
theorem MlbFlash.b2i_i2b_roundtrip (w n : Nat)
    (hw : w = 1 ∨ w = 2 ∨ w = 4 ∨ w = 8) (hn : n < 2 ^ (8 * w)) :
    MlbFlash.b2i (MlbFlash.i2b n w) = n :=
  MlbFlash.b2i_i2b w n hn

/-- Witness for C9 at w = 4, n = 0xDEADBEEF. -/
theorem MlbFlash.b2i_i2b_roundtrip_witness :
    ((4 : Nat) = 1 ∨ (4 : Nat) = 2 ∨ (4 : Nat) = 4 ∨ (4 : Nat) = 8) ∧
      0xDEADBEEF < 2 ^ (8 * 4) ∧
      MlbFlash.b2i (MlbFlash.i2b 0xDEADBEEF 4) = 0xDEADBEEF :=
  ⟨by norm_num, by norm_num,
    MlbFlash.b2i_i2b_roundtrip 4 0xDEADBEEF (by norm_num) (by norm_num)⟩

namespace MlbFlash

/-- A contiguous chain of half-open ranges covers every address between
the first range's start and the last range's end. -/
theorem chain_ranges_cover :
    ∀ (l : List (Nat × Nat)), List.Chain' (fun p q => p.2 = q.1) l →
      ∀ (x y : Nat × Nat) (a : Nat), l.head? = some x → l.getLast? = some y →
        x.1 ≤ a → a < y.2 → ∃ p ∈ l, p.1 ≤ a ∧ a < p.2 := by
  intro l
  induction l with
  | nil => intro _ x y a hx _ _ _; simp at hx
  | cons p t ih =>
    intro hch x y a hx hy hxa hay
    simp only [List.head?_cons, Option.some.injEq] at hx
    subst hx
    cases t with
    | nil =>
      simp only [List.getLast?_singleton, Option.some.injEq] at hy
      subst hy
      exact ⟨p, by simp, hxa, hay⟩
    | cons q t' =>
      by_cases hlt : a < p.2
      · exact ⟨p, by simp, hxa, hlt⟩
      · have hch' := List.chain'_cons.mp hch
        have hy' : (q :: t').getLast? = some y := by
          rw [← hy, List.getLast?_cons_cons]
        have hq1 : p.2 = q.1 := hch'.1
        obtain ⟨r, hr, h1, h2⟩ := ih hch'.2 q y a rfl hy' (by omega) hay
        exact ⟨r, List.mem_cons_of_mem _ hr, h1, h2⟩

/-- The sector-search loop finds nothing when no sector contains the
address. -/
theorem findSector_eq_none (a : Nat)
    (h : ∀ p ∈ ROM_SECTORS, ¬(p.1 ≤ a ∧ a < p.2)) :
    findSector a = (none, none) := by
  unfold findSector
  have hf : ROM_SECTORS.find? (fun p => decide (p.1 ≤ a) && decide (a < p.2)) = none :=
    List.find?_eq_none.mpr (fun x hx => by simpa using h x hx)
  rw [hf]

/-- With both sector bounds `None` the Python 2 comparisons in the clobber
scan are all false, so `check_erase` returns the sentinel and an empty
list. -/
theorem check_erase_sentinel (a : Nat) (mt : List Region)
    (h : ∀ p ∈ ROM_SECTORS, ¬(p.1 ≤ a ∧ a < p.2)) :
    check_erase a mt = ((none, none), []) := by
  unfold check_erase
  rw [findSector_eq_none a h]
  simp [pyLe]

end MlbFlash

/-- C7 counterexample: the compiled-in sector table has 35 entries (the
four small sectors below 0x10000 plus 31 sectors of size 0x10000), not
34. -/
theorem MlbFlash.ROM_SECTORS_not_34 :
    MlbFlash.ROM_SECTORS.length = 35 ∧ (35 : Nat) ≠ 34 := by
  decide

/-- C7 (amended): ROM_SECTORS consists of exactly 35 pairwise-disjoint
contiguous ranges covering the flash address space 0x000000–0x200000, with
sizes between 0x2000 and 0x10000 and the small (non-maximal) sectors all
at lower addresses than every maximal-size sector. -/
theorem MlbFlash.ROM_SECTORS_spec :
    MlbFlash.ROM_SECTORS.length = 35 ∧
    List.Pairwise (fun p q : Nat × Nat => p.2 ≤ q.1) MlbFlash.ROM_SECTORS ∧
    List.Chain' (fun p q : Nat × Nat => p.2 = q.1) MlbFlash.ROM_SECTORS ∧
    (∀ p ∈ MlbFlash.ROM_SECTORS, 0x2000 ≤ p.2 - p.1 ∧ p.2 - p.1 ≤ 0x10000) ∧
    (∀ p ∈ MlbFlash.ROM_SECTORS, ∀ q ∈ MlbFlash.ROM_SECTORS,
      p.2 - p.1 < 0x10000 → q.2 - q.1 = 0x10000 → p.1 < q.1) ∧
    (∀ p ∈ MlbFlash.ROM_SECTORS, p.2 ≤ 0x200000) ∧
    (∀ a : Nat, a < 0x200000 →
      ∃ p ∈ MlbFlash.ROM_SECTORS, p.1 ≤ a ∧ a < p.2) := by
  refine ⟨by decide, by decide, ?_, by decide, by decide, by decide, ?_⟩
  · simp [MlbFlash.ROM_SECTORS, List.chain'_cons]
  · intro a ha
    exact MlbFlash.chain_ranges_cover MlbFlash.ROM_SECTORS
      (by simp [MlbFlash.ROM_SECTORS, List.chain'_cons])
      (0x000000, 0x004000) (0x1F0000, 0x200000) a rfl rfl (Nat.zero_le a) ha

/-- C8: the handshake writes exactly the 4 challenge bytes FE A5 1B 1E and
reads exactly 4 bytes; it succeeds iff the reply is FE E1 90 0D, any other
4-byte reply (e.g. 00 00 00 00) raises the fatal handshake error, and a
short read raises the fatal length error. -/
theorem MlbFlash.check_connection_spec (s : MlbFlash.SerialState) :
    MlbFlash.check_connection s =
      (if 4 ≤ s.input.length then
        (if s.input.take 4 = MlbFlash.MAGIC_RESPONSE then
          Except.ok ⟨s.input.drop 4, s.output ++ MlbFlash.MAGIC_CHALLENGE⟩
         else Except.error MlbFlash.FlashError.boardNotResponding)
       else Except.error (MlbFlash.FlashError.shortRead 4 s.input.length)) ∧
    MlbFlash.check_connection ⟨[0xFE, 0xE1, 0x90, 0x0D], []⟩ =
      Except.ok ⟨[], MlbFlash.MAGIC_CHALLENGE⟩ ∧
    MlbFlash.check_connection ⟨[0x00, 0x00, 0x00, 0x00], []⟩ =
      Except.error MlbFlash.FlashError.boardNotResponding := by
  refine ⟨?_, by rfl, by rfl⟩
  unfold MlbFlash.check_connection MlbFlash.flashRead MlbFlash.flashWrite
  by_cases h4 : 4 ≤ s.input.length
  · have hlen : (s.input.take 4).length = 4 := by
      simp [List.length_take]; omega
    simp only [hlen, ne_eq, not_true_eq_false, if_pos h4, reduceIte]
    by_cases hm : s.input.take 4 = MlbFlash.MAGIC_RESPONSE <;> simp [hm]
  · have hlen : (s.input.take 4).length = s.input.length := by
      simp [List.length_take]; omega
    have hne : s.input.length ≠ 4 := by omega
    simp only [hlen, ne_eq, hne, not_false_eq_true, reduceIte, if_neg h4]

/-- C10: calling check_erase with an address contained in no sector raises
no error and returns ((None, None), []). -/
theorem MlbFlash.check_erase_no_sector (a : Nat) (mt : List MlbFlash.Region)
    (h : ∀ p ∈ MlbFlash.ROM_SECTORS, ¬(p.1 ≤ a ∧ a < p.2)) :
    MlbFlash.check_erase a mt = ((none, none), []) :=
  MlbFlash.check_erase_sentinel a mt h

/-- Witness for C10 at address 0x300000. -/
theorem MlbFlash.check_erase_no_sector_witness :
    (∀ p ∈ MlbFlash.ROM_SECTORS, ¬(p.1 ≤ 0x300000 ∧ 0x300000 < p.2)) ∧
    MlbFlash.check_erase 0x300000 [((0x4000, 0x5000), "Boot 0 RAM Image")] =
      ((none, none), []) :=
  ⟨by decide, MlbFlash.check_erase_no_sector _ _ (by decide)⟩

/-- C3 counterexample: at address 0x200000 (not contained in any sector)
check_erase completes normally, returning the None-sentinel bounds and an
empty clobber list — no OutOfRange (or any) failure occurs; the code has
no such error path. -/
theorem MlbFlash.check_erase_oor_counterexample :
    MlbFlash.check_erase 0x200000 [((0x4000, 0x5000), "Boot 0 RAM Image")] =
      ((none, none), []) := by
  decide

/-- C3 (amended): for every memory table and every address at or above the
top of the last sector (0x200000), check_erase does not fail; it returns
the sentinel ((None, None), []). -/
theorem MlbFlash.check_erase_ge_top (a : Nat) (mt : List MlbFlash.Region)
    (h : 0x200000 ≤ a) :
    MlbFlash.check_erase a mt = ((none, none), []) := by
  apply MlbFlash.check_erase_sentinel
  have htop : ∀ p ∈ MlbFlash.ROM_SECTORS, p.2 ≤ 0x200000 := by decide
  intro p hp hc
  have := htop p hp
  omega

/-- Witness for the amended C3 at address 0x234560. -/
theorem MlbFlash.check_erase_ge_top_witness :
    0x200000 ≤ 0x234560 ∧
    MlbFlash.check_erase 0x234560 [((0, 0x4000), "Boot Table")] =
      ((none, none), []) :=
  ⟨by norm_num, MlbFlash.check_erase_ge_top _ _ (by norm_num)⟩

/-- C4 counterexample: the region (0x4800, 0x5000) has its start address
inside the sector (0x4000, 0x6000) containing address 0x4000, so the claim
requires it to be listed as clobbered, but check_erase lists nothing. -/
theorem MlbFlash.check_erase_overlap_counterexample :
    MlbFlash.check_erase 0x4000 [((0x4800, 0x5000), "Boot 0 RAM Image")] =
      ((some 0x4000, some 0x6000), []) ∧
    0x4000 ≤ 0x4800 ∧ 0x4800 < 0x6000 ∧ 0x4800 < 0x5000 := by
  decide

/-- C4 (amended): for an address contained in sector (s, e), check_erase
returns that sector's bounds together with exactly the memory-table
regions r for which the sector's start s falls within r's half-open range
or the sector's end e falls within r's half-open range, in the memory
table's original order (filter preserves insertion order). -/
theorem MlbFlash.check_erase_clobbered (a : Nat) (mt : List MlbFlash.Region)
    (s e : Nat) (h : MlbFlash.findSector a = (some s, some e)) :
    MlbFlash.check_erase a mt =
      ((some s, some e),
       mt.filter (fun r =>
         (decide (r.1.1 ≤ s) && decide (s < r.1.2)) ||
         (decide (r.1.1 ≤ e) && decide (e < r.1.2)))) := by
  unfold MlbFlash.check_erase
  rw [h]
  simp [MlbFlash.pyLe, MlbFlash.pyLt]

/-- Witness for the amended C4: address 0x4100 lies in sector
(0x4000, 0x6000); the region (0x3000, 0x4100) contains the sector start. -/
theorem MlbFlash.check_erase_clobbered_witness :
    MlbFlash.findSector 0x4100 = (some 0x4000, some 0x6000) ∧
    MlbFlash.check_erase 0x4100 [((0x3000, 0x4100), "Boot 0 RAM Image")] =
      ((some 0x4000, some 0x6000),
       [((0x3000, 0x4100), "Boot 0 RAM Image")].filter
         (fun r : MlbFlash.Region =>
           (decide (r.1.1 ≤ 0x4000) && decide (0x4000 < r.1.2)) ||
           (decide (r.1.1 ≤ 0x6000) && decide (0x6000 < r.1.2)))) :=
  ⟨by decide, MlbFlash.check_erase_clobbered _ _ _ _ (by decide)⟩

/-- C6: decoding one boot-table slot is a total function of the slot
bytes (it cannot fail), and it decodes to Absent (`none`) if and only if
the slot's first 4 bytes differ from the ASCII tag CODE, regardless of the
remaining bytes. -/
theorem MlbFlash.decodeBootSlot_absent_iff (data : List Nat) :
    MlbFlash.decodeBootSlot data = none ↔
      data.take 4 ≠ MlbFlash.BOOT_MAGIC_NUMBER := by
  have hps : MlbFlash.pySlice data 0 4 = data.take 4 := by
    simp [MlbFlash.pySlice]
  unfold MlbFlash.decodeBootSlot
  rw [hps]
  by_cases h : data.take 4 = MlbFlash.BOOT_MAGIC_NUMBER <;> simp [h]

namespace MlbFlash

/-- `chunks` ignores sent bytes. -/
theorem chunks_send (bs : List Nat) (evs : List Ev) :
    chunks (.send bs :: evs) = chunks evs := rfl

/-- `chunks` ignores received bytes. -/
theorem chunks_recv (b : Nat) (evs : List Ev) :
    chunks (.recv b :: evs) = chunks evs := rfl

/-- `chunks` ignores sent acknowledges. -/
theorem chunks_sendAck (evs : List Ev) :
    chunks (.sendAck :: evs) = chunks evs := rfl

/-- `chunks` collects yielded chunks. -/
theorem chunks_yieldChunk (c : List Nat) (evs : List Ev) :
    chunks (.yieldChunk c :: evs) = c :: chunks evs := rfl

/-- `chunks` of the empty trace. -/
theorem chunks_nil : chunks [] = [] := rfl

/-- `sendAckCount` ignores received bytes. -/
theorem sendAckCount_recv (b : Nat) (evs : List Ev) :
    sendAckCount (.recv b :: evs) = sendAckCount evs := rfl

/-- `sendAckCount` ignores sent bytes. -/
theorem sendAckCount_send (bs : List Nat) (evs : List Ev) :
    sendAckCount (.send bs :: evs) = sendAckCount evs := rfl

/-- `sendAckCount` counts sent acknowledges. -/
theorem sendAckCount_sendAck (evs : List Ev) :
    sendAckCount (.sendAck :: evs) = sendAckCount evs + 1 := rfl

/-- `sendAckCount` ignores yielded chunks. -/
theorem sendAckCount_yieldChunk (c : List Nat) (evs : List Ev) :
    sendAckCount (.yieldChunk c :: evs) = sendAckCount evs := rfl

/-- `yieldLens` collects yielded lengths. -/
theorem yieldLens_yieldLen (n : Nat) (evs : List Ev) :
    yieldLens (.yieldLen n :: evs) = n :: yieldLens evs := rfl

/-- `yieldLens` ignores sent bytes. -/
theorem yieldLens_send (bs : List Nat) (evs : List Ev) :
    yieldLens (.send bs :: evs) = yieldLens evs := rfl

/-- `yieldLens` ignores awaited acknowledges. -/
theorem yieldLens_getAck (evs : List Ev) :
    yieldLens (.getAck :: evs) = yieldLens evs := rfl

/-- `getAckCount` ignores sent bytes. -/
theorem getAckCount_send (bs : List Nat) (evs : List Ev) :
    getAckCount (.send bs :: evs) = getAckCount evs := rfl

/-- `getAckCount` ignores yielded lengths. -/
theorem getAckCount_yieldLen (n : Nat) (evs : List Ev) :
    getAckCount (.yieldLen n :: evs) = getAckCount evs := rfl

/-- `getAckCount` counts awaited acknowledges. -/
theorem getAckCount_getAck (evs : List Ev) :
    getAckCount (.getAck :: evs) = getAckCount evs + 1 := rfl

/-- `sentBlocks` collects sent byte blocks. -/
theorem sentBlocks_send (bs : List Nat) (evs : List Ev) :
    sentBlocks (.send bs :: evs) = bs :: sentBlocks evs := rfl

/-- `sentBlocks` ignores yielded lengths. -/
theorem sentBlocks_yieldLen (n : Nat) (evs : List Ev) :
    sentBlocks (.yieldLen n :: evs) = sentBlocks evs := rfl

/-- `sentBlocks` ignores awaited acknowledges. -/
theorem sentBlocks_getAck (evs : List Ev) :
    sentBlocks (.getAck :: evs) = sentBlocks evs := rfl

/-- Invariant semantics of the `rom_read_` receive loop: when `data`
holds the `readBytes % ACK_PERIOD` bytes accumulated since the last
acknowledge and at least `remaining` input bytes are available, the loop
succeeds; its trace yields the next `remaining` input bytes appended to
`data` as chunks, sends one acknowledge per chunk, and observes the
receive-then-ack-then-yield discipline. -/
theorem romReadLoop_spec (remaining : Nat) :
    ∀ (input data : List Nat) (readBytes : Nat),
      data.length = readBytes % 16 →
      remaining ≤ input.length →
      ∃ evs, romReadLoop input data readBytes remaining = .ok evs ∧
        (chunks evs).flatten = data ++ input.take remaining ∧
        (chunks evs).map List.length =
          List.replicate ((readBytes + remaining) / 16 - readBytes / 16) 16 ++
            (if (readBytes + remaining) % 16 ≠ 0 then [(readBytes + remaining) % 16]
             else []) ∧
        sendAckCount evs = (readBytes + remaining + 15) / 16 - readBytes / 16 ∧
        wellFormedReadTrace evs = true := by
  induction remaining with
  | zero =>
    intro input data readBytes hdata _
    by_cases h : readBytes % 16 = 0
    · refine ⟨[], ?_, ?_, ?_, ?_, ?_⟩
      · simp [romReadLoop, ACK_PERIOD, h]
      · have hnil : data = [] := List.eq_nil_of_length_eq_zero (by omega)
        simp [chunks_nil, hnil]
      · simp [chunks_nil, h]
      · rw [show sendAckCount [] = 0 from rfl]
        omega
      · rfl
    · refine ⟨[.sendAck, .yieldChunk data], ?_, ?_, ?_, ?_, ?_⟩
      · simp [romReadLoop, ACK_PERIOD, h]
      · simp [chunks_sendAck, chunks_yieldChunk, chunks_nil]
      · simp [chunks_sendAck, chunks_yieldChunk, chunks_nil, h, hdata]
      · rw [show sendAckCount [Ev.sendAck, Ev.yieldChunk data] = 1 from rfl]
        omega
      · rfl
  | succ rem ih =>
    intro input data readBytes hdata hlen
    cases input with
    | nil => exact absurd hlen (by simp)
    | cons b input' =>
      by_cases hb : (readBytes + 1) % 16 = 0
      · obtain ⟨evs', heq, hflat, hmap, hack, hwf⟩ :=
          ih input' [] (readBytes + 1) (by simp; omega) (by simpa using hlen)
        have h16 : (data ++ [b]).length = 16 := by simp [hdata]; omega
        have harith : readBytes + 1 + rem = readBytes + (rem + 1) := by omega
        rw [harith] at hmap hack
        refine ⟨.recv b :: .sendAck :: .yieldChunk (data ++ [b]) :: evs',
          ?_, ?_, ?_, ?_, ?_⟩
        · simp [romReadLoop, ACK_PERIOD, hb, heq, Except.map]
        · simp only [chunks_recv, chunks_sendAck, chunks_yieldChunk,
            List.flatten_cons, hflat, List.take_succ_cons, List.nil_append]
          simp [List.append_assoc]
        · simp only [chunks_recv, chunks_sendAck, chunks_yieldChunk,
            List.map_cons]
          rw [hmap, h16]
          have hK : (readBytes + (rem + 1)) / 16 - readBytes / 16 =
              ((readBytes + (rem + 1)) / 16 - (readBytes + 1) / 16) + 1 := by
            omega
          rw [hK, List.replicate_succ]
          simp
        · simp only [sendAckCount_recv, sendAckCount_sendAck,
            sendAckCount_yieldChunk]
          rw [hack]
          omega
        · simp [wellFormedReadTrace, hwf]
      · obtain ⟨evs', heq, hflat, hmap, hack, hwf⟩ :=
          ih input' (data ++ [b]) (readBytes + 1) (by simp [hdata]; omega)
            (by simpa using hlen)
        have harith : readBytes + 1 + rem = readBytes + (rem + 1) := by omega
        rw [harith] at hmap hack
        refine ⟨.recv b :: evs', ?_, ?_, ?_, ?_, ?_⟩
        · simp [romReadLoop, ACK_PERIOD, hb, heq, Except.map]
        · simp only [chunks_recv, hflat, List.take_succ_cons]
          simp [List.append_assoc]
        · simp only [chunks_recv]
          rw [hmap]
          have hq : (readBytes + (rem + 1)) / 16 - (readBytes + 1) / 16 =
              (readBytes + (rem + 1)) / 16 - readBytes / 16 := by omega
          rw [hq]
        · simp only [sendAckCount_recv]
          rw [hack]
          omega
        · simp [wellFormedReadTrace, hwf]

end MlbFlash

/-- C1: for every address and length, when the board supplies at least
`length` bytes, `rom_read_` writes the R command header, then yields
chunks whose concatenation is exactly the first `length` input bytes; all
chunks have 16 bytes except a final chunk of `length mod 16` bytes when
that is non-zero; exactly ceil(length / 16) acknowledge bytes are sent,
and the trace observes the receive-then-ack-then-yield order (each ack is
immediately followed by its chunk's yield). -/
theorem MlbFlash.rom_read_spec (address length : Nat) (input : List Nat)
    (h : length ≤ input.length) :
    ∃ evs,
      MlbFlash.rom_read_ address length input =
        .ok (.send [0x52] :: .send (MlbFlash.word address) ::
             .send (MlbFlash.word length) :: evs) ∧
      (MlbFlash.chunks evs).flatten = input.take length ∧
      (MlbFlash.chunks evs).map List.length =
        List.replicate (length / 16) 16 ++
          (if length % 16 ≠ 0 then [length % 16] else []) ∧
      MlbFlash.sendAckCount evs = (length + 15) / 16 ∧
      MlbFlash.wellFormedReadTrace evs = true := by
  obtain ⟨evs, heq, hflat, hmap, hack, hwf⟩ :=
    MlbFlash.romReadLoop_spec length input [] 0 rfl h
  exact ⟨evs, by simp [MlbFlash.rom_read_, heq, Except.map],
    by simpa using hflat, by simpa using hmap, by simpa using hack, hwf⟩

/-- Witness for C1: a 40-byte read (3 chunks of lengths 16, 16, 8; 3
acks). -/
theorem MlbFlash.rom_read_spec_witness :
    40 ≤ (List.range 40).length ∧
    (∃ evs,
      MlbFlash.rom_read_ 0 40 (List.range 40) =
        .ok (.send [0x52] :: .send (MlbFlash.word 0) ::
             .send (MlbFlash.word 40) :: evs) ∧
      (MlbFlash.chunks evs).flatten = (List.range 40).take 40 ∧
      (MlbFlash.chunks evs).map List.length =
        List.replicate (40 / 16) 16 ++
          (if 40 % 16 ≠ 0 then [40 % 16] else []) ∧
      MlbFlash.sendAckCount evs = (40 + 15) / 16 ∧
      MlbFlash.wellFormedReadTrace evs = true) :=
  ⟨by simp, MlbFlash.rom_read_spec 0 40 (List.range 40) (by simp)⟩

namespace MlbFlash

/-- Semantics of the `rom_write_` send loop when the board acknowledges
every chunk: the loop succeeds, slices the buffer into chunks of at most
16 bytes (all 16 except a final `length mod 16` chunk), yields each
chunk's length, awaits exactly one acknowledge per chunk and sends the
whole buffer. -/
theorem romWriteLoop_spec :
    ∀ (k : Nat) (data : List Nat),
      k = (data.length + 15) / 16 →
      ∃ evs, romWriteLoop data (List.replicate k 0x41) = .ok evs ∧
        yieldLens evs =
          List.replicate (data.length / 16) 16 ++
            (if data.length % 16 ≠ 0 then [data.length % 16] else []) ∧
        (yieldLens evs).sum = data.length ∧
        getAckCount evs = (data.length + 15) / 16 ∧
        (sentBlocks evs).flatten = data ∧
        wellFormedWriteTrace evs = true := by
  intro k
  induction k with
  | zero =>
    intro data hk
    have hnil : data = [] := by
      have : data.length = 0 := by omega
      exact List.eq_nil_of_length_eq_zero this
    subst hnil
    exact ⟨[], by simp [romWriteLoop], by simp [yieldLens],
      by simp [yieldLens], by simp [getAckCount], by simp [sentBlocks], rfl⟩
  | succ k ih =>
    intro data hk
    cases data with
    | nil => simp at hk
    | cons d ds =>
      have hlen : (d :: ds).length = ds.length + 1 := rfl
      have hrest : ((d :: ds).drop 16).length = (d :: ds).length - 16 := by
        simp
      obtain ⟨evs', heq, hylens, hsum, hget, hblocks, hwf⟩ :=
        ih ((d :: ds).drop 16) (by rw [hrest]; omega)
      have heq' : romWriteLoop (List.drop 15 ds) (List.replicate k 0x41) =
          Except.ok evs' := heq
      refine ⟨.send ((d :: ds).take 16) ::
        .yieldLen ((d :: ds).take 16).length :: .getAck :: evs',
        ?_, ?_, ?_, ?_, ?_, ?_⟩
      · rw [List.replicate_succ]
        simp [romWriteLoop, ACK_PERIOD, heq', Except.map]
      · simp only [yieldLens_send, yieldLens_yieldLen, yieldLens_getAck]
        rw [hylens, hrest, List.length_take]
        by_cases hL : 16 ≤ (d :: ds).length
        · have hmin : min 16 (d :: ds).length = 16 := by omega
          have hdiv : (d :: ds).length / 16 =
              (((d :: ds).length - 16) / 16) + 1 := by omega
          have hmod : ((d :: ds).length - 16) % 16 = (d :: ds).length % 16 := by
            omega
          rw [hmin, hdiv, hmod, List.replicate_succ]
          simp
        · have hpos : 0 < (d :: ds).length := by simp
          have hmin : min 16 (d :: ds).length = (d :: ds).length := by omega
          have hz : (d :: ds).length - 16 = 0 := by omega
          have hdiv : (d :: ds).length / 16 = 0 := by omega
          have hmod : (d :: ds).length % 16 = (d :: ds).length := by omega
          rw [hmin, hz, hdiv, hmod]
          simp
      · simp only [yieldLens_send, yieldLens_yieldLen, yieldLens_getAck,
          List.sum_cons]
        rw [hsum, hrest, List.length_take]
        omega
      · simp only [getAckCount_send, getAckCount_yieldLen, getAckCount_getAck]
        rw [hget, hrest]
        omega
      · simp only [sentBlocks_send, sentBlocks_yieldLen, sentBlocks_getAck,
          List.flatten_cons]
        rw [hblocks, List.take_append_drop]
      · simp [wellFormedWriteTrace, hwf]

end MlbFlash

/-- C2: for every address and data buffer, when the board acknowledges
each chunk, `rom_write_` writes the W command header, splits the buffer
into consecutive chunks of at most 16 bytes — all 16 except a final
`length mod 16` chunk when that is non-zero — writes each chunk, yields
its length, awaits exactly one acknowledge per chunk, and the yielded
lengths sum to the buffer length; a non-`A` acknowledge byte makes the
loop fail with the fatal acknowledge error. -/
theorem MlbFlash.rom_write_spec (address : Nat) (data input : List Nat)
    (h : input = List.replicate ((data.length + 15) / 16) 0x41) :
    (∃ evs,
      MlbFlash.rom_write_ address data input =
        .ok (.send [0x57] :: .send (MlbFlash.word address) ::
             .send (MlbFlash.word data.length) :: evs) ∧
      MlbFlash.yieldLens evs =
        List.replicate (data.length / 16) 16 ++
          (if data.length % 16 ≠ 0 then [data.length % 16] else []) ∧
      (MlbFlash.yieldLens evs).sum = data.length ∧
      MlbFlash.getAckCount evs = (data.length + 15) / 16 ∧
      (MlbFlash.sentBlocks evs).flatten = data ∧
      MlbFlash.wellFormedWriteTrace evs = true) ∧
    (∀ (a : Nat) (rest : List Nat), data ≠ [] → a ≠ 0x41 →
      MlbFlash.romWriteLoop data (a :: rest) =
        .error (MlbFlash.FlashError.badAck a)) := by
  constructor
  · subst h
    obtain ⟨evs, heq, h1, h2, h3, h4, h5⟩ :=
      MlbFlash.romWriteLoop_spec ((data.length + 15) / 16) data rfl
    exact ⟨evs, by simp [MlbFlash.rom_write_, heq, Except.map],
      h1, h2, h3, h4, h5⟩
  · intro a rest hdata ha
    cases data with
    | nil => exact absurd rfl hdata
    | cons d ds => simp [MlbFlash.romWriteLoop, MlbFlash.ACK_PERIOD, ha]

/-- Witness for C2: a 40-byte buffer (chunks 16, 16, 8; 3 acks awaited). -/
theorem MlbFlash.rom_write_spec_witness :
    (List.replicate (((List.range 40).length + 15) / 16) 0x41 =
      List.replicate (((List.range 40).length + 15) / 16) 0x41) ∧
    ((∃ evs,
      MlbFlash.rom_write_ 0 (List.range 40)
          (List.replicate (((List.range 40).length + 15) / 16) 0x41) =
        .ok (.send [0x57] :: .send (MlbFlash.word 0) ::
             .send (MlbFlash.word (List.range 40).length) :: evs) ∧
      MlbFlash.yieldLens evs =
        List.replicate ((List.range 40).length / 16) 16 ++
          (if (List.range 40).length % 16 ≠ 0
           then [(List.range 40).length % 16] else []) ∧
      (MlbFlash.yieldLens evs).sum = (List.range 40).length ∧
      MlbFlash.getAckCount evs = ((List.range 40).length + 15) / 16 ∧
      (MlbFlash.sentBlocks evs).flatten = List.range 40 ∧
      MlbFlash.wellFormedWriteTrace evs = true) ∧
    (∀ (a : Nat) (rest : List Nat), List.range 40 ≠ [] → a ≠ 0x41 →
      MlbFlash.romWriteLoop (List.range 40) (a :: rest) =
        .error (MlbFlash.FlashError.badAck a))) :=
  ⟨rfl, MlbFlash.rom_write_spec 0 (List.range 40)
    (List.replicate (((List.range 40).length + 15) / 16) 0x41) rfl⟩

namespace MlbFlash

/-- Inserting into a list commutes with filtering by a predicate that
holds only for elements the inserted one relates to: the inserted element
(if kept) lands in front of the kept elements. -/
theorem filter_orderedInsert_key (p : Region → Bool) (x : Region)
    (hp : ∀ y, p y = true → p x = true → memKeyGe x y) :
    ∀ l : List Region,
      (l.orderedInsert memKeyGe x).filter p =
        (if p x then [x] else []) ++ l.filter p := by
  intro l
  induction l with
  | nil =>
    simp [List.orderedInsert, List.filter_cons]
  | cons y l' ihl =>
    by_cases hxy : memKeyGe x y
    · rw [List.orderedInsert_of_le _ _ hxy]
      rw [List.filter_cons, List.filter_cons]
      by_cases hpx : p x = true <;> simp [hpx]
    · rw [List.orderedInsert, if_neg hxy]
      rw [List.filter_cons, List.filter_cons, ihl]
      by_cases hpx : p x = true
      · by_cases hpy : p y = true
        · exact absurd (hp y hpy hpx) hxy
        · simp [hpx, hpy]
      · simp [hpx]

/-- The insertion sort by descending start address is stable: filtering
the sorted list by any one key gives the same list as filtering the
input. -/
theorem filter_insertionSort_key (p : Region → Bool)
    (hp : ∀ x y, p x = true → p y = true → memKeyGe x y) :
    ∀ l : List Region,
      (l.insertionSort memKeyGe).filter p = l.filter p := by
  intro l
  induction l with
  | nil => rfl
  | cons x l' ihl =>
    rw [List.insertionSort,
      filter_orderedInsert_key p x (fun y hy hx => hp x y hx hy), ihl,
      List.filter_cons]
    by_cases hpx : p x = true <;> simp [hpx]

end MlbFlash

/-- C5: for every boot table, get_memory_table returns exactly the two
fixed regions plus one labeled region per non-zero-length image field of
each valid boot entry (the `memoryRanges` list), re-ordered by start
address descending; the sort is a permutation, the output is pairwise
descending by start, and regions with equal start addresses keep their
original insertion order (filtering by any start address preserves the
input's relative order). -/
theorem MlbFlash.get_memory_table_spec (bt : List (Option MlbFlash.BootEntry)) :
    List.Perm (MlbFlash.get_memory_table bt) (MlbFlash.memoryRanges bt) ∧
    List.Pairwise (fun x y : MlbFlash.Region => y.1.1 ≤ x.1.1)
      (MlbFlash.get_memory_table bt) ∧
    ∀ a : Nat,
      (MlbFlash.get_memory_table bt).filter (fun x => x.1.1 == a) =
        (MlbFlash.memoryRanges bt).filter (fun x => x.1.1 == a) := by
  refine ⟨List.perm_insertionSort _ _, ?_, ?_⟩
  · exact List.sorted_insertionSort MlbFlash.memKeyGe (MlbFlash.memoryRanges bt)
  · intro a
    refine MlbFlash.filter_insertionSort_key _ ?_ _
    intro x y hx hy
    have hx' : x.1.1 = a := by simpa using hx
    have hy' : y.1.1 = a := by simpa using hy
    simp [MlbFlash.memKeyGe, hx', hy']
